import Mathlib

/-!
# Verification of the Transcript-to-Slide Synthesis Engine

Shallow embedding, in Lean 4, of the core functions of
`src/process_pipeline.py` (the authoritative variant of the pipeline; the
`src/pipeline/` package contains the same functions with minor cosmetic
differences noted where relevant), together with theorems settling the
frozen claims about the natural-language specification.

Conventions of the embedding:
* Python strings are modelled as `List Char` in the core definitions, with
  `String` wrappers at the boundary where convenient.
* Python `str.split()` (no argument), `str.strip()`, `str.lower()`,
  `in` (substring test), `str.find` / `str.rfind`, slices, and
  `str.replace` are each given a faithful executable model below.
* Times (seconds) are modelled as `ℚ`: the Python code only stores and
  compares these float values (no arithmetic is performed on them), and
  comparison on floats agrees with comparison on the rationals they denote.
* Fallible Python code (functions that may return `None`, or raise) is
  modelled with `Option`.
* The `while` loop of `chunk_text_by_words` is modelled as an explicit
  fuel-indexed step function so that its (non-)termination can be stated.
-/

/-- ASCII whitespace recognised by Python's `str.split()` / `str.strip()`
(and by the regex class `\s` on ASCII input): space, tab, newline,
carriage return, form feed, vertical tab. -/
def isPyWs (c : Char) : Bool :=
  c = ' ' ∨ c = '\t' ∨ c = '\n' ∨ c = '\r' ∨ c = '\x0c' ∨ c = '\x0b'

/-- Worker for `pyWords`: `cur` is the reversed word currently being
collected (empty when between words). -/
def pyWordsAux (cur : List Char) : List Char → List (List Char)
  | [] => if cur = [] then [] else [cur.reverse]
  | c :: cs =>
    if isPyWs c then
      if cur = [] then pyWordsAux [] cs
      else cur.reverse :: pyWordsAux [] cs
    else pyWordsAux (c :: cur) cs

/-- Python `str.split()` with no separator: split on runs of whitespace,
discarding empty pieces. Words are returned as character lists. -/
def pyWords (cs : List Char) : List (List Char) :=
  pyWordsAux [] cs

/-- Python `" ".join(ws)`. -/
def joinWords (ws : List (List Char)) : List Char :=
  List.intercalate [' '] ws

/-- Python slice index resolution: a negative index counts from the end,
and the result is clamped to `[0, len]`. -/
def sliceIdx (len : Nat) (k : Int) : Nat :=
  (max 0 (min (len : Int) (if k < 0 then (len : Int) + k else k))).toNat

/-- Python slice `xs[a:b]`. -/
def pySlice (xs : List α) (a b : Int) : List α :=
  (xs.take (sliceIdx xs.length b)).drop (sliceIdx xs.length a)

/-- One execution of the `while` loop of `chunk_text_by_words`
(`src/process_pipeline.py`, lines 167–175), indexed by fuel:

```python
i = 0
while i < len(words):
    j = min(len(words), i + target)
    chunks.append(" ".join(words[i:j]))
    i = j
```

`none` means the fuel ran out before the loop finished, so a `none` for
every fuel is non-termination of the source loop. -/
def chunkLoop (words : List (List Char)) (target : Int) :
    Nat → Int → List (List Char) → Option (List (List Char))
  | 0, _, _ => none
  | fuel + 1, i, acc =>
    if i < (words.length : Int) then
      chunkLoop words target fuel (min (words.length : Int) (i + target))
        (acc ++ [joinWords (pySlice words i (min (words.length : Int) (i + target)))])
    else
      some acc

/-- Model of `chunk_text_by_words(text, target)` (`src/process_pipeline.py`,
lines 167–175; an identical copy lives in `src/pipeline/utils.py`,
lines 51–59), as the fuel-indexed loop above run from `i = 0` on the
whitespace-split words of `text`. -/
def chunk_text_by_words (text : List Char) (target : Int) (fuel : Nat) :
    Option (List (List Char)) :=
  chunkLoop (pyWords text) target fuel 0 []

/-- The word groups the loop produces for a positive target: repeatedly
take `target` words. (Convenience recursion; its agreement with
`chunkLoop` is proved in `chunkLoop_eq_chunkGroups`.) -/
def chunkGroups (target : Nat) (ws : List (List Char)) :
    List (List (List Char)) :=
  if _h : target = 0 then []
  else
    match ws with
    | [] => []
    | w :: rest => ((w :: rest).take target) :: chunkGroups target ((w :: rest).drop target)
termination_by ws.length
decreasing_by
  simp only [List.length_drop, List.length_cons]
  omega

/-- Python `str.lower()` (faithful on ASCII, which is all the pipeline ever
lowers). -/
def pyLower (cs : List Char) : List Char :=
  cs.map Char.toLower

/-- Python `str.lower()` at the `String` boundary. -/
def pyLowerStr (s : String) : String :=
  String.mk (pyLower s.toList)

/-- Python `s.startswith(pre)` on character lists. -/
def startsWithL (cs pre : List Char) : Bool :=
  pre.isPrefixOf cs

/-- Python `needle in hay` (substring containment) on character lists. -/
def isSubstrOf (needle hay : List Char) : Bool :=
  hay.tails.any (fun t => needle.isPrefixOf t)

/-- Python `str.strip()` with no argument: remove leading and trailing
whitespace. -/
def pyStrip (cs : List Char) : List Char :=
  ((cs.dropWhile isPyWs).reverse.dropWhile isPyWs).reverse

/-- Python `str.strip(chars)`: remove leading and trailing characters drawn
from the given set. -/
def stripCharSet (set cs : List Char) : List Char :=
  ((cs.dropWhile (· ∈ set)).reverse.dropWhile (· ∈ set)).reverse

/-- Python `s.find(ch)`: index of the first occurrence, `none` for the
source's `-1`. -/
def pyFindChar : List Char → Char → Option Nat
  | [], _ => none
  | c :: cs, t => if c = t then some 0 else (pyFindChar cs t).map (· + 1)

/-- Python `s.rfind(ch)`: index of the last occurrence, `none` for the
source's `-1`. -/
def pyRFindChar (cs : List Char) (t : Char) : Option Nat :=
  (pyFindChar cs.reverse t).map (fun k => cs.length - 1 - k)

/-- Python `s.replace(pat, rep)` for a non-empty pattern: replace all
non-overlapping occurrences, scanning left to right. (The pipeline only
ever replaces the non-empty literals "```json" and "```".) -/
def replaceAll (pat rep : List Char) : List Char → List Char
  | [] => []
  | c :: cs =>
    if h : pat ≠ [] ∧ pat.isPrefixOf (c :: cs) = true then
      rep ++ replaceAll pat rep ((c :: cs).drop pat.length)
    else
      c :: replaceAll pat rep cs
termination_by cs => cs.length
decreasing_by
  · have hp : 0 < pat.length := List.length_pos.mpr h.1
    simp only [List.length_drop, List.length_cons]
    omega
  · simp

/-!
## The fence-extraction regex of `safe_parse_json`

`safe_parse_json` (`src/process_pipeline.py`, lines 453–489) first handles
markdown code fences:

```python
if "```" in s:
    match = re.search(r"```(?:json)?\s*(\{.*?\})\s*```", s, re.DOTALL)
    if match:
        s = match.group(1)
    else:
        s = s.replace("```json", "").replace("```", "").strip()
```

The regex is determinised below. At a candidate start the engine must see
the literal fence; `(?:json)?` is greedy, and when `"json"` is present but
the rest of the pattern fails, the empty alternative also fails (the next
character is then `j`, which is neither whitespace nor `{`), so consuming
`"json"` when present is exact. `\s*` followed by a non-whitespace literal
matches exactly "skip the maximal whitespace run, then require the
literal". The lazy `.*?` before `\}` selects the first closing brace whose
suffix completes the match. `re.search` yields the leftmost such match.
-/

/-- Does `\s*` followed by the literal closing fence match here? -/
def fenceTailOk (cs : List Char) : Bool :=
  startsWithL (cs.dropWhile isPyWs) ("```".toList)

/-- Scan for the first `}` whose suffix completes the fence pattern
(the lazy `.*?\}\s*` + closing fence). Returns the capture-group content
between the braces, exclusive, together with the rest of the input. -/
def findFenceClose (acc : List Char) : List Char → Option (List Char)
  | [] => none
  | c :: rest =>
    if c = '}' ∧ fenceTailOk rest then some acc.reverse
    else findFenceClose (c :: acc) rest

/-- Model of `re.search` of the fence pattern: try each start position from the
left; at each, follow the determinised pattern above. Returns the capture
group (braces included) of the leftmost match. -/
def matchFenceFrom : List Char → Option (List Char)
  | [] => none
  | c :: rest =>
    (if startsWithL (c :: rest) ("```".toList) then
      let afterTicks := (c :: rest).drop 3
      let body :=
        if startsWithL afterTicks ("json".toList) then afterTicks.drop 4
        else afterTicks
      match body.dropWhile isPyWs with
      | '{' :: inner =>
        match findFenceClose [] inner with
        | some content => some ('{' :: (content ++ ['}']))
        | none => matchFenceFrom rest
      | _ => matchFenceFrom rest
    else matchFenceFrom rest)

/-- The fence-handling prefix of `safe_parse_json`: when a fence marker is
present, replace the input by the regex capture when the regex matches,
otherwise strip the fence literals and surrounding whitespace. -/
def fenceHandle (cs : List Char) : List Char :=
  if isSubstrOf ("```".toList) cs then
    match matchFenceFrom cs with
    | some captured => captured
    | none => pyStrip (replaceAll ("```".toList) [] (replaceAll ("```json".toList) [] cs))
  else cs

/-!
## JSON values and `json.loads`

The model of Python's `json.loads` used by `safe_parse_json`. Strict
decoding: trailing commas, unquoted keys, single quotes and control
characters in strings are all rejected, exactly as in the source's parser.
Numbers with a fraction or exponent (and the `NaN`/`Infinity` literals)
are floats in Python; they are kept here as their source lexeme, which is
enough because the engine never computes with them. Duplicate object keys
are kept in order of appearance; lookups take the last one, as a Python
dict built left to right would.
-/

inductive Json where
  | null : Json
  | bool (b : Bool) : Json
  | int (n : Int) : Json
  | float (lexeme : String) : Json
  | str (s : String) : Json
  | arr (elems : List Json) : Json
  | obj (fields : List (String × Json)) : Json

/-- JSON whitespace (what Python's decoder skips between tokens):
space, tab, newline, carriage return. -/
def isJsonWs (c : Char) : Bool :=
  c = ' ' ∨ c = '\t' ∨ c = '\n' ∨ c = '\r'

def skipJWs (cs : List Char) : List Char :=
  cs.dropWhile isJsonWs

def hexVal (c : Char) : Option Nat :=
  if '0' ≤ c ∧ c ≤ '9' then some (c.toNat - 48)
  else if 'a' ≤ c ∧ c ≤ 'f' then some (c.toNat - 87)
  else if 'A' ≤ c ∧ c ≤ 'F' then some (c.toNat - 55)
  else none

/-- JSON string body (after the opening quote), strict mode: raw control
characters are rejected; the standard escapes are decoded. (A lone
`\uXXXX` surrogate is mapped through `Char.ofNat`'s fallback rather than
paired — the pipeline never feeds surrogate escapes.) -/
def parseJString (acc : List Char) : List Char → Option (String × List Char)
  | [] => none
  | c :: rest =>
    if c = '"' then some (String.mk acc.reverse, rest)
    else if c = '\\' then
      match rest with
      | [] => none
      | e :: r2 =>
        if e = '"' then parseJString ('"' :: acc) r2
        else if e = '\\' then parseJString ('\\' :: acc) r2
        else if e = '/' then parseJString ('/' :: acc) r2
        else if e = 'b' then parseJString ('\x08' :: acc) r2
        else if e = 'f' then parseJString ('\x0c' :: acc) r2
        else if e = 'n' then parseJString ('\n' :: acc) r2
        else if e = 'r' then parseJString ('\r' :: acc) r2
        else if e = 't' then parseJString ('\t' :: acc) r2
        else if e = 'u' then
          match r2 with
          | h1 :: h2 :: h3 :: h4 :: r3 =>
            match hexVal h1, hexVal h2, hexVal h3, hexVal h4 with
            | some a, some b, some c3, some d =>
              parseJString (Char.ofNat (((a * 16 + b) * 16 + c3) * 16 + d) :: acc) r3
            | _, _, _, _ => none
          | _ => none
        else none
    else if c.toNat < 0x20 then none
    else parseJString (c :: acc) rest

def digitsToNat (ds : List Char) : Nat :=
  ds.foldl (fun a c => 10 * a + (c.toNat - 48)) 0

/-- Python's JSON number grammar
`(-?(?:0|[1-9]\d*))(\.\d+)?([eE][-+]?\d+)?`: integer result when neither
fraction nor exponent is present, float (kept as lexeme) otherwise. -/
def parseJNumber (cs : List Char) : Option (Json × List Char) :=
  let (neg, cs1) := match cs with
    | '-' :: r => (true, r)
    | _ => (false, cs)
  let intPart : Option (List Char × List Char) := match cs1 with
    | '0' :: r => some (['0'], r)
    | c :: _ =>
      if c.isDigit ∧ c ≠ '0' then
        some (cs1.takeWhile Char.isDigit, cs1.dropWhile Char.isDigit)
      else none
    | [] => none
  match intPart with
  | none => none
  | some (ds, rest) =>
    let (frac, rest1) : List Char × List Char := match rest with
      | '.' :: d :: _ =>
        if d.isDigit then
          ('.' :: (rest.drop 1).takeWhile Char.isDigit,
            (rest.drop 1).dropWhile Char.isDigit)
        else ([], rest)
      | _ => ([], rest)
    let (expo, rest2) : List Char × List Char := match rest1 with
      | e :: tail =>
        if e = 'e' ∨ e = 'E' then
          match tail with
          | s :: d :: _ =>
            if (s = '+' ∨ s = '-') ∧ d.isDigit then
              (e :: s :: (tail.drop 1).takeWhile Char.isDigit,
                (tail.drop 1).dropWhile Char.isDigit)
            else if s.isDigit then
              (e :: tail.takeWhile Char.isDigit, tail.dropWhile Char.isDigit)
            else ([], rest1)
          | [s] =>
            if s.isDigit then (e :: [s], []) else ([], rest1)
          | [] => ([], rest1)
        else ([], rest1)
      | [] => ([], rest1)
    if frac = [] ∧ expo = [] then
      let n : Int := digitsToNat ds
      some (Json.int (if neg then -n else n), rest)
    else
      let lexeme := (if neg then '-' :: ds else ds) ++ frac ++ expo
      some (Json.float (String.mk lexeme), rest2)

mutual

/-- One JSON value. Leading whitespace is skipped here; in the source the
skipping happens at every call site of `scan_once`, which is equivalent. -/
def parseJValue : Nat → List Char → Option (Json × List Char)
  | 0, _ => none
  | fuel + 1, cs =>
    match skipJWs cs with
    | [] => none
    | c :: rest =>
      if c = '{' then
        match skipJWs rest with
        | '}' :: r2 => some (Json.obj [], r2)
        | r2 => parseJMembers fuel r2 []
      else if c = '[' then
        match skipJWs rest with
        | ']' :: r2 => some (Json.arr [], r2)
        | r2 => parseJElems fuel r2 []
      else if c = '"' then
        (parseJString [] rest).map (fun (s, r) => (Json.str s, r))
      else if startsWithL (c :: rest) ("true".toList) then
        some (Json.bool true, (c :: rest).drop 4)
      else if startsWithL (c :: rest) ("false".toList) then
        some (Json.bool false, (c :: rest).drop 5)
      else if startsWithL (c :: rest) ("null".toList) then
        some (Json.null, (c :: rest).drop 4)
      else if c = '-' ∨ c.isDigit then
        match parseJNumber (c :: rest) with
        | some p => some p
        | none =>
          if startsWithL (c :: rest) ("-Infinity".toList) then
            some (Json.float ("-Infinity"), (c :: rest).drop 9)
          else none
      else if startsWithL (c :: rest) ("NaN".toList) then
        some (Json.float ("NaN"), (c :: rest).drop 3)
      else if startsWithL (c :: rest) ("Infinity".toList) then
        some (Json.float ("Infinity"), (c :: rest).drop 8)
      else none

/-- Array elements after the first `[` (non-empty case), matching the
decoder's loop: value, then `,` (more elements) or `]` (done); anything
else — including a trailing comma's `]` where a value is expected — fails. -/
def parseJElems : Nat → List Char → List Json → Option (Json × List Char)
  | 0, _, _ => none
  | fuel + 1, cs, acc =>
    match parseJValue fuel cs with
    | none => none
    | some (v, r) =>
      match skipJWs r with
      | ',' :: r2 => parseJElems fuel r2 (acc ++ [v])
      | ']' :: r2 => some (Json.arr (acc ++ [v]), r2)
      | _ => none

/-- Object members after the first `{` (non-empty case): quoted key, `:`,
value, then `,` or `}`. -/
def parseJMembers : Nat → List Char → List (String × Json) → Option (Json × List Char)
  | 0, _, _ => none
  | fuel + 1, cs, acc =>
    match cs with
    | '"' :: rest =>
      match parseJString [] rest with
      | none => none
      | some (k, r1) =>
        match skipJWs r1 with
        | ':' :: r2 =>
          match parseJValue fuel r2 with
          | none => none
          | some (v, r3) =>
            match skipJWs r3 with
            | ',' :: r4 => parseJMembers fuel (skipJWs r4) (acc ++ [(k, v)])
            | '}' :: r4 => some (Json.obj (acc ++ [(k, v)]), r4)
            | _ => none
        | _ => none
    | _ => none

end

/-- Model of `json.loads`: one value, whole input (up to whitespace), else failure. -/
def jsonParse (cs : List Char) : Option Json :=
  match parseJValue (cs.length + 1) cs with
  | some (j, rest) => if skipJWs rest = [] then some j else none
  | none => none

/-- Worker for `removeTrailingCommas`: `pend` holds (reversed) a comma and
the whitespace seen after it, not yet emitted because the match
`,\s*([\]}])` may still complete; it is flushed verbatim as soon as the
match becomes impossible, or dropped (keeping only the bracket) when the
match completes, exactly as `re.sub` scans left to right. -/
def rtcAux (pend : List Char) : List Char → List Char
  | [] => pend.reverse
  | c :: cs =>
    if c = ',' then pend.reverse ++ rtcAux [','] cs
    else if pend ≠ [] ∧ isPyWs c then rtcAux (c :: pend) cs
    else if pend ≠ [] ∧ (c = ']' ∨ c = '}') then c :: rtcAux [] cs
    else pend.reverse ++ c :: rtcAux [] cs

/-- The repair `re.sub(r',\s*([\]}])', r'\1', candidate)`: remove any comma
(with the whitespace after it) that precedes a closing bracket or brace. -/
def removeTrailingCommas (cs : List Char) : List Char :=
  rtcAux [] cs

/-- Model of `safe_parse_json(s)` (`src/process_pipeline.py`, lines 453–489):
markdown-fence handling, then the substring between the first `{` and the
last `}`, parsed directly and — on failure — once more after the
trailing-comma repair. `none` models both the source's `return None` and
an empty input. (The `src/pipeline/llm.py` variant, lines 70–82, differs:
it has no fence handling and no comma repair.) -/
def safe_parse_json (s : List Char) : Option Json :=
  if s = [] then none
  else
    match pyFindChar (fenceHandle s) '{', pyRFindChar (fenceHandle s) '}' with
    | some start, some stop =>
      if stop ≤ start then none
      else
        match jsonParse (((fenceHandle s).take (stop + 1)).drop start) with
        | some j => some j
        | none =>
          jsonParse (removeTrailingCommas (((fenceHandle s).take (stop + 1)).drop start))
    | _, _ => none

def safe_parse_json_str (s : String) : Option Json :=
  safe_parse_json s.toList

/-!
## Extraction acceptance and the generation-client loop

`process_video_file` (`src/process_pipeline.py`, lines 703–727) tries the
primary model and then each fallback, two generation calls per model:

```python
for model in models_to_try:
    for attempt in range(2):
        llm_out = call_local_llm(prompt, model_name=model)
        if llm_out:
            parsed = safe_parse_json(llm_out)
            if parsed:
                break
            else:
                llm_out = None
        time.sleep(1)
    if llm_out:
        break
```

One generation call is modelled by its outcome alone (`call_local_llm`
returns the assembled text or `None` on any transport failure), so a
model's two attempts are a pair of `Option String`. An attempt succeeds
when the call produced text that is truthy (`call_local_llm` never returns
an empty string, but `if llm_out:` would also treat one as a failure) and
`safe_parse_json` of it is a truthy Python value (`if parsed:`). -/

/-- Python truthiness of a parsed JSON value (`if parsed:`): `None`,
`False`, zero, empty string/list/dict are falsy. -/
def jsonFalsy : Json → Bool
  | Json.null => true
  | Json.bool b => !b
  | Json.int n => n = 0
  | Json.float lex =>
      (lex.toList.takeWhile (fun c => c ≠ 'e' ∧ c ≠ 'E')).all
        (fun c => c = '0' ∨ c = '.' ∨ c = '-')
  | Json.str s => s = ""
  | Json.arr elems => elems.isEmpty
  | Json.obj fields => fields.isEmpty

/-- Test `llm_out and safe_parse_json(llm_out)` both truthy: the attempt is
judged successful. -/
def extractorAccepts (s : String) : Bool :=
  decide (s ≠ "") && (match safe_parse_json_str s with
    | some j => ! jsonFalsy j
    | none => false)

/-- Did one attempt succeed? -/
def attemptOk : Option String → Bool
  | some t => extractorAccepts t
  | none => false

/-- The inner `for attempt in range(2)` loop for one model: the pair of
call outcomes, the surviving `llm_out`, and how many generation calls were
made. (A call that returned text the extractor rejects leaves `llm_out`
reset to `None`, exactly as the source does.) -/
def tryModel (p : Option String × Option String) : Option String × Nat :=
  if attemptOk p.1 then (p.1, 1)
  else if attemptOk p.2 then (p.2, 2)
  else (none, 2)

/-- The outer `for model in models_to_try` loop: stop at the first model
whose inner loop left a truthy `llm_out`; count all generation calls. -/
def tryModels : List (Option String × Option String) → Option String × Nat
  | [] => (none, 0)
  | m :: rest =>
    match tryModel m with
    | (some t, n) => (some t, n)
    | (none, n) =>
      let r := tryModels rest
      (r.1, n + r.2)

/-!
## Diagram normalization, timestamp alignment, frame selection
-/

structure DiagramSpec where
  diagram_type : List Char
  mermaid : List Char

/-- The `if`/`elif` chain of `normalize_mermaid`: prepend the canonical
directive line for the (already lowered) type when its guard asks for it.
Note the guards: `mindmap` and `hierarchy` test a (case-insensitive)
**startswith**, while `flowchart` and `timeline` test a substring
**anywhere** in the text. -/
def normalizedMermaidText (dt m : List Char) : List Char :=
  if dt = "mindmap".toList ∧ ¬ startsWithL (pyLower m) ("mindmap".toList) then
    ("mindmap\n  ").toList ++ m
  else if dt = "flowchart".toList ∧ ¬ isSubstrOf ("flowchart".toList) (pyLower m) then
    ("flowchart TD\n  ").toList ++ m
  else if dt = "hierarchy".toList ∧ ¬ startsWithL (pyLower m) ("graph".toList) then
    ("graph TD\n  ").toList ++ m
  else if dt = "timeline".toList ∧ ¬ isSubstrOf ("timeline".toList) (pyLower m) then
    ("flowchart TD\n  ").toList ++ m
  else m

/-- Model of `normalize_mermaid(diagram_type, mermaid)` (`src/process_pipeline.py`,
lines 502–518; the `src/pipeline/diagrams.py` variant, lines 11–30, is
identical except that it does not lower-case `diagram_type`, which the
claims never exercise since they only use lower-case type names). The
guard `if not mermaid or not mermaid.strip()` collapses to the strip test
(an empty string strips to empty). -/
def normalize_mermaid (diagram_type mermaid : List Char) : Option DiagramSpec :=
  if pyStrip mermaid = [] then none
  else
    some ⟨pyLower diagram_type,
      normalizedMermaidText (pyLower diagram_type)
        (pyStrip (stripCharSet ("`".toList) (pyStrip mermaid)))⟩

/-- One VTT caption segment as produced by `parse_vtt_timestamps`. -/
structure CaptionSeg where
  start : ℚ
  text : List Char

/-- The anchor `safe` words: `" ".join(chunk_text.split()[:5]).lower()`. -/
def chunkAnchor (chunk_text : List Char) : List Char :=
  pyLower (joinWords ((pyWords chunk_text).take 5))

/-- Model of `find_start_time_for_chunk(chunk_text, segments)`
(`src/process_pipeline.py`, lines 212–221): start time of the first
segment whose text contains the chunk's first five words, else the first
segment's start time, else `0.0`. -/
def find_start_time_for_chunk (chunk_text : List Char) (segments : List CaptionSeg) : ℚ :=
  match segments.find? (fun seg => isSubstrOf (chunkAnchor chunk_text) (pyLower seg.text)) with
  | some seg => seg.start
  | none =>
    match segments with
    | [] => 0
    | s :: _ => s.start

/-- One extracted frame as produced by `extract_frames`. -/
structure FrameSample where
  path : List Char
  time : ℚ

/-- The `for f in frames` loop of `find_closest_frame`: remember the path
of every frame not later than the target, stop at the first later one. -/
def closestLoop (t : ℚ) : List FrameSample → Option (List Char) → Option (List Char)
  | [], closest => closest
  | f :: rest, closest =>
    if f.time ≤ t then closestLoop t rest (some f.path) else closest

/-- Model of `find_closest_frame(target_time, frames)` (`src/process_pipeline.py`,
lines 267–277). `closest or frames[0]["path"]` falls back exactly when
`closest` is still `None`: `pathlib.Path` objects are always truthy. -/
def find_closest_frame (target_time : ℚ) (frames : List FrameSample) : Option (List Char) :=
  match frames with
  | [] => none
  | f0 :: _ => some ((closestLoop target_time frames none).getD f0.path)

/-!
## Slide construction and the per-chunk loop of `process_video_file`
-/

/-- Model of `parsed.get(key)` on the dict built from the parsed object's fields
(later duplicate keys overwrite earlier ones, so the last match wins). -/
def dictGet (fields : List (String × Json)) (k : String) : Option Json :=
  (fields.filter (fun p => p.1 = k)).getLast?.map (·.2)

/-- Model of `(parsed.get(key) or default)` used where a string is then required:
a missing or falsy value gives the default; a truthy non-string value
would raise in the source (modelled as `none`). -/
def pyOrStrDefault (v : Option Json) (dflt : String) : Option String :=
  match v with
  | none => some dflt
  | some j =>
    if jsonFalsy j then some dflt
    else
      match j with
      | Json.str s => some s
      | _ => none

/-- One slide dict as assembled at `src/process_pipeline.py`,
lines 742–751. `title`/`bullets`/`notes` keep whatever JSON value the
model produced (the source never coerces them). -/
structure SlideRec where
  title : Json
  bullets : Json
  notes : Json
  diagram : Option DiagramSpec
  start_time : ℚ
  video_id : String
  screenshot : Option (List Char)

/-- The per-chunk slide construction (`src/process_pipeline.py`,
lines 730–751): diagram type and text via `or`-defaults, the diagram only
when the (lowered) type is not `"none"`, and `get` defaults for the plain
fields. `none` models the exceptions the source would raise on non-string
`diagram_type`/`mermaid` values or a non-object `parsed`. -/
def buildSlideFields (parsed : Json) (st : ℚ) (vid : String)
    (shot : Option (List Char)) : Option SlideRec :=
  match parsed with
  | Json.obj fields =>
    match pyOrStrDefault (dictGet fields ("diagram_type")) "none" with
    | none => none
    | some dtRaw =>
      match pyOrStrDefault (dictGet fields ("mermaid")) "" with
      | none => none
      | some mer =>
        some
          { title := (dictGet fields ("title")).getD (Json.str (""))
            bullets := (dictGet fields ("bullets")).getD (Json.arr [])
            notes := (dictGet fields ("notes")).getD (Json.str (""))
            diagram :=
              if pyLowerStr dtRaw ≠ "none" then
                normalize_mermaid (pyLowerStr dtRaw).toList mer.toList
              else none
            start_time := st
            video_id := vid
            screenshot := shot }
  | _ => none

/-- The `for idx, chunk in enumerate(chunks, ...)` loop of
`process_video_file` (`src/process_pipeline.py`, lines 682–757), with the
generation service abstracted by `outcomes` (per chunk index, the two call
outcomes for each model in `[Config.MODEL_NAME] + Config.FALLBACK_MODELS`
order). A chunk whose models all fail is skipped (`continue`) — no slide
is appended for it. The outer `none` models an exception escaping the
loop (impossible for well-typed extractions). -/
def processChunks (outcomes : Nat → List (Option String × Option String))
    (segments : List CaptionSeg) (frames : List FrameSample) (vid : String) :
    Nat → List (List Char) → Option (List SlideRec)
  | _, [] => some []
  | idx, chunk :: rest =>
    match (tryModels (outcomes idx)).1 with
    | none => processChunks outcomes segments frames vid (idx + 1) rest
    | some llm_out =>
      match safe_parse_json_str llm_out with
      | none => none
      | some parsed =>
        let st := find_start_time_for_chunk chunk segments
        let shot := find_closest_frame st frames
        match buildSlideFields parsed st vid shot with
        | none => none
        | some slide =>
          (processChunks outcomes segments frames vid (idx + 1) rest).map
            (fun deck => slide :: deck)

/-- Did the generation-client loop succeed for chunk `i`? -/
def chunkSucceeds (outcomes : Nat → List (Option String × Option String))
    (i : Nat) : Bool :=
  (tryModels (outcomes i)).1.isSome

/-- The slide record one loop iteration of `process_video_file` appends
for chunk number `i` with text `chunk`: `none` when the generation-client
loop fails for that chunk (the `continue` case) or when the slide
construction would raise. Used to characterise the deck chunk by chunk. -/
def mkChunkSlide (outcomes : Nat → List (Option String × Option String))
    (segments : List CaptionSeg) (frames : List FrameSample) (vid : String)
    (i : Nat) (chunk : List Char) : Option SlideRec :=
  match (tryModels (outcomes i)).1 with
  | none => none
  | some llm_out =>
    match safe_parse_json_str llm_out with
    | none => none
    | some parsed =>
      buildSlideFields parsed (find_start_time_for_chunk chunk segments) vid
        (find_closest_frame (find_start_time_for_chunk chunk segments) frames)

/-!
## Helper lemmas
-/

theorem pyFindChar_eq_none (cs : List Char) (t : Char) :
    t ∉ cs → pyFindChar cs t = none := by
  induction cs with
  | nil => intro _; rfl
  | cons c cs ih =>
    intro hmem
    simp only [List.mem_cons, not_or] at hmem
    simp only [pyFindChar, if_neg (Ne.symm hmem.1), ih hmem.2, Option.map_none']

theorem pyRFindChar_eq_none (cs : List Char) (t : Char) :
    t ∉ cs → pyRFindChar cs t = none := by
  intro hmem
  have : t ∉ cs.reverse := by simpa using hmem
  simp [pyRFindChar, pyFindChar_eq_none _ _ this]

/-!
## Claim C2 — trailing-comma repair in the extractor
-/

/-- C2: on the input `{"a":[1,2,],}` the brace-delimited substring (the
whole input) fails to parse directly; removing every comma that precedes a
closing bracket or brace makes it parse; and `safe_parse_json` therefore
succeeds with the object `{"a":[1,2]}`. -/
theorem safe_parse_json_trailing_comma_repair :
    jsonParse ("\x7b\"a\":[1,2,],\x7d".toList) = none ∧
    jsonParse (removeTrailingCommas ("\x7b\"a\":[1,2,],\x7d".toList))
      = some (Json.obj [("a", Json.arr [Json.int 1, Json.int 2])]) ∧
    safe_parse_json_str ("\x7b\"a\":[1,2,],\x7d")
      = some (Json.obj [("a", Json.arr [Json.int 1, Json.int 2])]) :=
  ⟨rfl, rfl, rfl⟩

/-!
## Claim C1 — fallback after two transport failures of the primary model
-/

/-- C1: when the primary model's two generation calls both fail at
transport level (`call_local_llm` returns `None` twice) and the first
fallback model's first call returns text the extractor accepts, the
generation-client loop makes exactly 3 calls in total, stops there (the
remaining attempt of that model and all further models are never
consulted, whatever they hold), and hands back exactly the fallback
model's output. -/
theorem fallback_success_three_calls (t : String) (c1 : Option String)
    (rest : List (Option String × Option String))
    (hacc : extractorAccepts t = true) :
    tryModels ((none, none) :: (some t, c1) :: rest) = (some t, 3) := by
  simp [tryModels, tryModel, attemptOk, hacc]

/-- Witness for C1 at a concrete accepted output. -/
theorem fallback_success_three_calls_witness :
    extractorAccepts ("\x7b\"title\": \"T\"\x7d") = true ∧
    tryModels [(none, none), (some ("\x7b\"title\": \"T\"\x7d"), none)]
      = (some ("\x7b\"title\": \"T\"\x7d"), 3) :=
  ⟨rfl, fallback_success_three_calls ("\x7b\"title\": \"T\"\x7d") none [] rfl⟩

/-!
## Claim C9 — the extractor is total and brace-less inputs fail cleanly
-/

/-- C9: `safe_parse_json` is a total function (it is a Lean `def` into
`Option`, so every input yields a value rather than an exception), and for
any input that after fence handling contains no opening or no closing
brace it reports failure with `none`. -/
theorem safe_parse_json_none_of_no_brace (s : List Char)
    (h : '{' ∉ fenceHandle s ∨ '}' ∉ fenceHandle s) :
    safe_parse_json s = none := by
  unfold safe_parse_json
  rcases eq_or_ne s [] with hs | hs
  · simp [hs]
  · rw [if_neg hs]
    rcases h with h | h
    · rw [pyFindChar_eq_none _ _ h]
    · rw [pyRFindChar_eq_none _ _ h]
      rcases pyFindChar (fenceHandle s) '{' with _ | k <;> rfl

/-- Witness for C9 on a concrete brace-free input. -/
theorem safe_parse_json_none_of_no_brace_witness :
    ('{' ∉ fenceHandle ("no braces at all".toList) ∨
      '}' ∉ fenceHandle ("no braces at all".toList)) ∧
    safe_parse_json ("no braces at all".toList) = none :=
  ⟨Or.inl (by decide),
    safe_parse_json_none_of_no_brace _ (Or.inl (by decide))⟩

/-!
## Claim C4 — frame selection
-/


theorem filter_time_nil_of_head_late (t : ℚ) (f : FrameSample)
    (rest : List FrameSample)
    (hs : (f :: rest).Pairwise (fun a b => a.time ≤ b.time))
    (hft : ¬ f.time ≤ t) :
    (f :: rest).filter (fun g => decide (g.time ≤ t)) = [] := by
  rw [List.filter_eq_nil_iff]
  intro a ha
  rcases List.mem_cons.mp ha with rfl | ha
  · simpa using hft
  · simp only [decide_eq_true_eq]
    intro hat
    exact hft (le_trans ((List.pairwise_cons.mp hs).1 a ha) hat)

theorem closestLoop_of_filter_nil (t : ℚ) (frames : List FrameSample)
    (hnil : frames.filter (fun g => decide (g.time ≤ t)) = [])
    (acc : Option (List Char)) :
    closestLoop t frames acc = acc := by
  rcases frames with _ | ⟨f, rest⟩
  · rfl
  · have hf : ¬ f.time ≤ t := by
      intro hft
      have : f ∈ (f :: rest).filter (fun g => decide (g.time ≤ t)) :=
        List.mem_filter.mpr ⟨List.mem_cons_self f rest, by simpa using hft⟩
      rw [hnil] at this
      exact List.not_mem_nil f this
    rw [closestLoop, if_neg hf]

theorem closestLoop_of_getLast_some (t : ℚ) (frames : List FrameSample)
    (hs : frames.Pairwise (fun a b => a.time ≤ b.time)) (y : FrameSample)
    (hy : (frames.filter (fun g => decide (g.time ≤ t))).getLast? = some y)
    (acc : Option (List Char)) :
    closestLoop t frames acc = some y.path := by
  induction frames generalizing acc with
  | nil => simp at hy
  | cons f rest ih =>
    rcases List.pairwise_cons.mp hs with ⟨_, hrest⟩
    by_cases hft : f.time ≤ t
    · rw [List.filter_cons_of_pos (by simpa using hft)] at hy
      rw [closestLoop, if_pos hft]
      rcases hfr : rest.filter (fun g => decide (g.time ≤ t)) with _ | ⟨x, xs⟩
      · rw [hfr] at hy
        simp only [List.getLast?_singleton, Option.some.injEq] at hy
        subst hy
        exact closestLoop_of_filter_nil t rest hfr _
      · rw [hfr, List.getLast?_cons_cons] at hy
        rw [← hfr] at hy
        exact ih hrest hy (some f.path)
    · rw [filter_time_nil_of_head_late t f rest hs hft] at hy
      simp at hy

/-- C4: for frames with non-decreasing capture times, `find_closest_frame`
returns the path of the latest frame whose time is ≤ the target; when no
frame is that early it returns the first frame's path; on an empty
sequence it returns no frame. -/
theorem find_closest_frame_spec (t : ℚ) (frames : List FrameSample)
    (hs : List.Chain' (fun a b => a.time ≤ b.time) frames) :
    find_closest_frame t frames
      = match (frames.filter (fun g => decide (g.time ≤ t))).getLast?, frames.head? with
        | some f, _ => some f.path
        | none, some f0 => some f0.path
        | none, none => none := by
  have hP : frames.Pairwise (fun a b => a.time ≤ b.time) := by
    have : IsTrans FrameSample (fun a b => a.time ≤ b.time) :=
      ⟨fun _ _ _ hab hbc => le_trans hab hbc⟩
    exact List.chain'_iff_pairwise.mp hs
  rcases frames with _ | ⟨f0, rest⟩
  · rfl
  · rcases hy : ((f0 :: rest).filter (fun g => decide (g.time ≤ t))).getLast? with _ | y
    · have hnil : (f0 :: rest).filter (fun g => decide (g.time ≤ t)) = [] :=
        List.getLast?_eq_none_iff.mp hy
      rw [find_closest_frame, closestLoop_of_filter_nil t _ hnil none]
      simp only [hy]
      rfl
    · rw [find_closest_frame, closestLoop_of_getLast_some t _ hP y hy none]
      simp only [hy]
      rfl

/-- Witness for C4 at the spec's example: frames at times 0, 10, 20 and
target 15 select the frame at 10; target 0 selects the frame at 0; a
target before all frames selects the first frame. -/
theorem find_closest_frame_spec_witness :
    List.Chain' (fun a b => a.time ≤ b.time)
      [⟨"f0".toList, 0⟩, ⟨"f10".toList, 10⟩, (⟨"f20".toList, 20⟩ : FrameSample)] ∧
    find_closest_frame 15
      [⟨"f0".toList, 0⟩, ⟨"f10".toList, 10⟩, ⟨"f20".toList, 20⟩] = some ("f10".toList) ∧
    find_closest_frame 0
      [⟨"f0".toList, 0⟩, ⟨"f10".toList, 10⟩, ⟨"f20".toList, 20⟩] = some ("f0".toList) ∧
    find_closest_frame (-1)
      [⟨"f0".toList, 0⟩, ⟨"f10".toList, 10⟩, ⟨"f20".toList, 20⟩] = some ("f0".toList) := by
  have hc : List.Chain' (fun (a b : FrameSample) => a.time ≤ b.time)
      [⟨"f0".toList, 0⟩, ⟨"f10".toList, 10⟩, ⟨"f20".toList, 20⟩] := by
    refine List.chain'_cons.mpr ⟨by norm_num, List.chain'_cons.mpr ⟨by norm_num, ?_⟩⟩
    exact List.chain'_singleton _
  refine ⟨hc, ?_, ?_, ?_⟩
  · rw [find_closest_frame_spec 15 _ hc]
    norm_num
  · rw [find_closest_frame_spec 0 _ hc]
    norm_num
  · rw [find_closest_frame_spec (-1) _ hc]
    norm_num

/-!
## Claim C3 — timestamp alignment

The anchor test in `find_start_time_for_chunk` asks whether the chunk's
first five words occur **inside** a caption's text. A chunk that starts
with the words "foo bar baz" therefore can never anchor to the caption
"foo bar": the needle is longer than that caption (and differs from
"hello world"). The spec's contract sentence agrees with the code; its
worked example (expecting `5.0`) does not.
-/

theorem isPrefixOf_imp_length_le :
    ∀ (n h : List Char), n.isPrefixOf h = true → n.length ≤ h.length := by
  intro n
  induction n with
  | nil => intro h _; simp
  | cons a as ih =>
    intro h hp
    rcases h with _ | ⟨b, bs⟩
    · simp [List.isPrefixOf] at hp
    · simp only [List.isPrefixOf, Bool.and_eq_true, beq_iff_eq] at hp
      simpa using ih bs hp.2

theorem isPrefixOf_imp_eq_of_length :
    ∀ (n h : List Char), n.isPrefixOf h = true → n.length = h.length → n = h := by
  intro n
  induction n with
  | nil =>
    intro h _ hlen
    exact (List.length_eq_zero.mp hlen.symm).symm
  | cons a as ih =>
    intro h hp hlen
    rcases h with _ | ⟨b, bs⟩
    · simp [List.isPrefixOf] at hp
    · simp only [List.isPrefixOf, Bool.and_eq_true, beq_iff_eq] at hp
      simp only [List.length_cons, Nat.succ.injEq] at hlen
      rw [hp.1, ih bs hp.2 hlen]

theorem isSubstrOf_imp_length_le (n h : List Char)
    (hsub : isSubstrOf n h = true) : n.length ≤ h.length := by
  rcases List.any_eq_true.mp hsub with ⟨t, ht, hp⟩
  exact le_trans (isPrefixOf_imp_length_le n t hp)
    ((List.mem_tails t h).mp ht).length_le

theorem isSubstrOf_imp_eq_of_length (n h : List Char)
    (hsub : isSubstrOf n h = true) (hlen : n.length = h.length) : n = h := by
  rcases List.any_eq_true.mp hsub with ⟨t, ht, hp⟩
  have hsuf := (List.mem_tails t h).mp ht
  have h1 : n.length ≤ t.length := isPrefixOf_imp_length_le n t hp
  have h2 : t.length ≤ h.length := hsuf.length_le
  have ht_eq : t = h := hsuf.eq_of_length (by omega)
  exact isPrefixOf_imp_eq_of_length n h (ht_eq ▸ hp) hlen

/-- The anchor of a chunk whose word sequence starts `foo bar baz` is
`"foo bar baz"` followed by some (possibly empty) lowered tail. -/
theorem chunkAnchor_foo_bar_baz (chunk : List Char) (ws : List (List Char))
    (hw : pyWords chunk = "foo".toList :: "bar".toList :: "baz".toList :: ws) :
    ∃ t, chunkAnchor chunk = "foo bar baz".toList ++ t := by
  unfold chunkAnchor
  rw [hw]
  have htake : ("foo".toList :: "bar".toList :: "baz".toList :: ws).take 5
      = "foo".toList :: "bar".toList :: "baz".toList :: ws.take 2 := by
    simp [List.take_cons]
  rw [htake]
  have hjoin : ∃ u, joinWords ("foo".toList :: "bar".toList :: "baz".toList :: ws.take 2)
      = "foo bar baz".toList ++ u := by
    rcases ws.take 2 with _ | ⟨w, ws'⟩
    · exact ⟨[], rfl⟩
    · exact ⟨' ' :: joinWords (w :: ws'), rfl⟩
  rcases hjoin with ⟨u, hu⟩
  refine ⟨pyLower u, ?_⟩
  rw [hu]
  unfold pyLower
  rw [List.map_append]
  rfl

/-- Counterexample to C3 as stated: for the spec's own captions, the chunk
`"foo bar baz"` is aligned to time `0.0` (the first caption's start), not
to `5.0` as the claim asserts. -/
theorem find_start_time_foo_bar_counterexample :
    find_start_time_for_chunk ("foo bar baz".toList)
      [⟨0, "hello world".toList⟩, ⟨5, "foo bar".toList⟩] = 0 ∧
    (0 : ℚ) ≠ 5 :=
  ⟨rfl, by norm_num⟩

/-- C3 (amended): with captions `[(0.0,"hello world"), (5.0,"foo bar")]`,
every chunk whose word sequence starts `foo bar baz` is aligned to `0.0`
— no caption text contains the chunk's first five words, so the aligner
falls back to the first caption's start time; and in general, whenever no
caption text contains a chunk's anchor, the first caption's start time is
returned. -/
theorem find_start_time_amended (chunk : List Char) (ws : List (List Char))
    (hw : pyWords chunk = "foo".toList :: "bar".toList :: "baz".toList :: ws)
    (segs : List CaptionSeg) (s : CaptionSeg) (rest : List CaptionSeg)
    (hsegs : segs = s :: rest)
    (hnone : ∀ seg ∈ segs, isSubstrOf (chunkAnchor chunk) (pyLower seg.text) = false) :
    find_start_time_for_chunk chunk
      [⟨0, "hello world".toList⟩, ⟨5, "foo bar".toList⟩] = 0 ∧
    find_start_time_for_chunk chunk segs = s.start := by
  rcases chunkAnchor_foo_bar_baz chunk ws hw with ⟨t, ht⟩
  have hlen : (chunkAnchor chunk).length = 11 + t.length := by
    rw [ht, List.length_append]
    norm_num
  constructor
  · have h1 : isSubstrOf (chunkAnchor chunk) (pyLower ("hello world".toList)) = false := by
      by_contra hne
      have htrue : isSubstrOf (chunkAnchor chunk) (pyLower ("hello world".toList)) = true := by
        revert hne
        cases isSubstrOf (chunkAnchor chunk) (pyLower ("hello world".toList)) <;> simp
      have hle := isSubstrOf_imp_length_le _ _ htrue
      have hlw : (pyLower ("hello world".toList)).length = 11 := by decide
      have ht0 : t = [] := by
        rw [hlw] at hle
        rw [hlen] at hle
        exact List.length_eq_zero.mp (by omega)
      have heq := isSubstrOf_imp_eq_of_length _ _ htrue (by rw [hlw, hlen, ht0]; rfl)
      rw [ht, ht0, List.append_nil] at heq
      exact absurd heq (by decide)
    have h2 : isSubstrOf (chunkAnchor chunk) (pyLower ("foo bar".toList)) = false := by
      by_contra hne
      have htrue : isSubstrOf (chunkAnchor chunk) (pyLower ("foo bar".toList)) = true := by
        revert hne
        cases isSubstrOf (chunkAnchor chunk) (pyLower ("foo bar".toList)) <;> simp
      have hle := isSubstrOf_imp_length_le _ _ htrue
      have hlw : (pyLower ("foo bar".toList)).length = 7 := by decide
      rw [hlw, hlen] at hle
      omega
    have hfind : List.find?
        (fun seg => isSubstrOf (chunkAnchor chunk) (pyLower seg.text))
        ([⟨0, "hello world".toList⟩, ⟨5, "foo bar".toList⟩] : List CaptionSeg) = none := by
      rw [List.find?_eq_none]
      intro x hx
      rcases List.mem_cons.mp hx with rfl | hx
      · simpa using h1
      · rcases List.mem_cons.mp hx with rfl | hx
        · simpa using h2
        · simp at hx
    unfold find_start_time_for_chunk
    rw [hfind]
  · have hfind : List.find?
        (fun seg => isSubstrOf (chunkAnchor chunk) (pyLower seg.text)) segs = none := by
      rw [List.find?_eq_none]
      intro x hx
      simp [hnone x hx]
    unfold find_start_time_for_chunk
    rw [hfind, hsegs]

/-- Witness for C3 (amended), at the chunk `"foo bar baz qux"` and a
one-caption fallback scenario. -/
theorem find_start_time_amended_witness :
    find_start_time_for_chunk ("foo bar baz qux".toList)
      [⟨0, "hello world".toList⟩, ⟨5, "foo bar".toList⟩] = 0 ∧
    find_start_time_for_chunk ("foo bar baz qux".toList)
      [⟨(7 : ℚ)/2, "irrelevant caption".toList⟩] = (7 : ℚ)/2 :=
  find_start_time_amended ("foo bar baz qux".toList) ["qux".toList]
    (by rfl) [⟨(7 : ℚ)/2, "irrelevant caption".toList⟩]
    ⟨(7 : ℚ)/2, "irrelevant caption".toList⟩ [] rfl
    (by decide)

/-!
## Claim C6 — diagram normalization

The `flowchart` and `timeline` guards test for the directive **anywhere**
in the text (`"flowchart" not in m.lower()`), not as its first token, so
the normalized text is *not* guaranteed to begin with the directive for
those types; `mindmap` and `hierarchy` use `startswith` and do give a
prefix guarantee (for the tokens `mindmap` resp. `graph`).
-/

theorem isPrefixOf_append_left :
    ∀ (p a b : List Char), p.isPrefixOf a = true → p.isPrefixOf (a ++ b) = true := by
  intro p
  induction p with
  | nil => intro a b _; simp [List.isPrefixOf]
  | cons x xs ih =>
    intro a b hp
    rcases a with _ | ⟨y, ys⟩
    · simp [List.isPrefixOf] at hp
    · simp only [List.isPrefixOf, Bool.and_eq_true, beq_iff_eq] at hp ⊢
      exact ⟨hp.1, ih ys b hp.2⟩

theorem isSubstrOf_of_isPrefixOf (p h : List Char)
    (hp : p.isPrefixOf h = true) : isSubstrOf p h = true := by
  refine List.any_eq_true.mpr ⟨h, ?_, hp⟩
  exact (List.mem_tails h h).mpr (List.suffix_refl h)

theorem pyLower_append (a b : List Char) :
    pyLower (a ++ b) = pyLower a ++ pyLower b := by
  simp [pyLower]

theorem normalizedMermaidText_mindmap (m : List Char) :
    startsWithL (pyLower (normalizedMermaidText ("mindmap".toList) m))
      ("mindmap".toList) = true := by
  unfold normalizedMermaidText
  by_cases hX : startsWithL (pyLower m) ("mindmap".toList) = true
  · rw [if_neg (fun hc => hc.2 hX), if_neg (fun hc => absurd hc.1 (by decide)),
      if_neg (fun hc => absurd hc.1 (by decide)), if_neg (fun hc => absurd hc.1 (by decide))]
    exact hX
  · rw [if_pos ⟨rfl, fun hc => hX hc⟩, pyLower_append]
    unfold startsWithL
    exact isPrefixOf_append_left _ _ _ (by decide)

theorem normalizedMermaidText_flowchart (m : List Char) :
    isSubstrOf ("flowchart".toList)
      (pyLower (normalizedMermaidText ("flowchart".toList) m)) = true := by
  unfold normalizedMermaidText
  by_cases hX : isSubstrOf ("flowchart".toList) (pyLower m) = true
  · rw [if_neg (fun hc => absurd hc.1 (by decide)), if_neg (fun hc => hc.2 hX),
      if_neg (fun hc => absurd hc.1 (by decide)), if_neg (fun hc => absurd hc.1 (by decide))]
    exact hX
  · rw [if_neg (fun hc => absurd hc.1 (by decide)), if_pos ⟨rfl, fun hc => hX hc⟩,
      pyLower_append]
    exact isSubstrOf_of_isPrefixOf _ _ (isPrefixOf_append_left _ _ _ (by decide))

theorem normalizedMermaidText_hierarchy (m : List Char) :
    startsWithL (pyLower (normalizedMermaidText ("hierarchy".toList) m))
      ("graph".toList) = true := by
  unfold normalizedMermaidText
  by_cases hX : startsWithL (pyLower m) ("graph".toList) = true
  · rw [if_neg (fun hc => absurd hc.1 (by decide)), if_neg (fun hc => absurd hc.1 (by decide)),
      if_neg (fun hc => hc.2 hX), if_neg (fun hc => absurd hc.1 (by decide))]
    exact hX
  · rw [if_neg (fun hc => absurd hc.1 (by decide)), if_neg (fun hc => absurd hc.1 (by decide)),
      if_pos ⟨rfl, fun hc => hX hc⟩, pyLower_append]
    unfold startsWithL
    exact isPrefixOf_append_left _ _ _ (by decide)

theorem normalizedMermaidText_timeline (m : List Char) :
    isSubstrOf ("timeline".toList)
      (pyLower (normalizedMermaidText ("timeline".toList) m)) = true ∨
    startsWithL (normalizedMermaidText ("timeline".toList) m)
      ("flowchart TD".toList) = true := by
  unfold normalizedMermaidText
  by_cases hX : isSubstrOf ("timeline".toList) (pyLower m) = true
  · left
    rw [if_neg (fun hc => absurd hc.1 (by decide)), if_neg (fun hc => absurd hc.1 (by decide)),
      if_neg (fun hc => absurd hc.1 (by decide)), if_neg (fun hc => hc.2 hX)]
    exact hX
  · right
    rw [if_neg (fun hc => absurd hc.1 (by decide)), if_neg (fun hc => absurd hc.1 (by decide)),
      if_neg (fun hc => absurd hc.1 (by decide)), if_pos ⟨rfl, fun hc => hX hc⟩]
    unfold startsWithL
    exact isPrefixOf_append_left _ _ _ (by decide)

/-- Counterexample to C6 as stated: for diagram type `flowchart` and text
`"see flowchart"` the normalizer returns the text unchanged — it contains
the word `flowchart`, so nothing is prepended — and the result begins with
neither the directive `flowchart TD` nor even the token `flowchart`. -/
theorem normalize_mermaid_flowchart_counterexample :
    normalize_mermaid ("flowchart".toList) ("see flowchart".toList)
      = some ⟨"flowchart".toList, "see flowchart".toList⟩ ∧
    startsWithL ("see flowchart".toList) ("flowchart TD".toList) = false ∧
    startsWithL ("see flowchart".toList) ("flowchart".toList) = false :=
  ⟨rfl, rfl, rfl⟩

set_option maxHeartbeats 1000000 in
/-- C6 (amended): an empty or whitespace-only diagram text yields no
`DiagramSpec`; otherwise a `DiagramSpec` is returned whose type is the
lowered input type, and whose text satisfies the guard actually enforced
per type: for `mindmap` it begins (case-insensitively) with `mindmap`, for
`hierarchy` with `graph`; for `flowchart` the word `flowchart` occurs
somewhere in it (it begins with `flowchart TD` only when the word was
absent from the input); for `timeline` either the word `timeline` occurs
in it or it begins with the prepended `flowchart TD`. -/
theorem normalize_mermaid_amended (mermaid : List Char) :
    (pyStrip mermaid = [] → ∀ dtype, normalize_mermaid dtype mermaid = none) ∧
    (pyStrip mermaid ≠ [] →
      (∃ s1, normalize_mermaid ("mindmap".toList) mermaid = some s1 ∧
        s1.diagram_type = "mindmap".toList ∧
        startsWithL (pyLower s1.mermaid) ("mindmap".toList) = true) ∧
      (∃ s2, normalize_mermaid ("flowchart".toList) mermaid = some s2 ∧
        s2.diagram_type = "flowchart".toList ∧
        isSubstrOf ("flowchart".toList) (pyLower s2.mermaid) = true) ∧
      (∃ s3, normalize_mermaid ("hierarchy".toList) mermaid = some s3 ∧
        s3.diagram_type = "hierarchy".toList ∧
        startsWithL (pyLower s3.mermaid) ("graph".toList) = true) ∧
      (∃ s4, normalize_mermaid ("timeline".toList) mermaid = some s4 ∧
        s4.diagram_type = "timeline".toList ∧
        (isSubstrOf ("timeline".toList) (pyLower s4.mermaid) = true ∨
          startsWithL s4.mermaid ("flowchart TD".toList) = true))) := by
  constructor
  · intro hnil dtype
    rw [normalize_mermaid, if_pos hnil]
  · intro hne
    have hkey : ∀ dt : List Char, normalize_mermaid dt mermaid
        = some ⟨pyLower dt, normalizedMermaidText (pyLower dt)
            (pyStrip (stripCharSet ("`".toList) (pyStrip mermaid)))⟩ :=
      fun dt => by rw [normalize_mermaid, if_neg hne]
    have e1 : pyLower ("mindmap".toList) = "mindmap".toList := by decide
    have e2 : pyLower ("flowchart".toList) = "flowchart".toList := by decide
    have e3 : pyLower ("hierarchy".toList) = "hierarchy".toList := by decide
    have e4 : pyLower ("timeline".toList) = "timeline".toList := by decide
    have k1 : normalize_mermaid ("mindmap".toList) mermaid
        = some ⟨"mindmap".toList, normalizedMermaidText ("mindmap".toList)
            (pyStrip (stripCharSet ("`".toList) (pyStrip mermaid)))⟩ := by
      rw [hkey, e1]
    have k2 : normalize_mermaid ("flowchart".toList) mermaid
        = some ⟨"flowchart".toList, normalizedMermaidText ("flowchart".toList)
            (pyStrip (stripCharSet ("`".toList) (pyStrip mermaid)))⟩ := by
      rw [hkey, e2]
    have k3 : normalize_mermaid ("hierarchy".toList) mermaid
        = some ⟨"hierarchy".toList, normalizedMermaidText ("hierarchy".toList)
            (pyStrip (stripCharSet ("`".toList) (pyStrip mermaid)))⟩ := by
      rw [hkey, e3]
    have k4 : normalize_mermaid ("timeline".toList) mermaid
        = some ⟨"timeline".toList, normalizedMermaidText ("timeline".toList)
            (pyStrip (stripCharSet ("`".toList) (pyStrip mermaid)))⟩ := by
      rw [hkey, e4]
    exact ⟨⟨⟨"mindmap".toList, normalizedMermaidText ("mindmap".toList)
          (pyStrip (stripCharSet ("`".toList) (pyStrip mermaid)))⟩,
        k1, rfl, normalizedMermaidText_mindmap _⟩,
      ⟨⟨"flowchart".toList, normalizedMermaidText ("flowchart".toList)
          (pyStrip (stripCharSet ("`".toList) (pyStrip mermaid)))⟩,
        k2, rfl, normalizedMermaidText_flowchart _⟩,
      ⟨⟨"hierarchy".toList, normalizedMermaidText ("hierarchy".toList)
          (pyStrip (stripCharSet ("`".toList) (pyStrip mermaid)))⟩,
        k3, rfl, normalizedMermaidText_hierarchy _⟩,
      ⟨⟨"timeline".toList, normalizedMermaidText ("timeline".toList)
          (pyStrip (stripCharSet ("`".toList) (pyStrip mermaid)))⟩,
        k4, rfl, normalizedMermaidText_timeline _⟩⟩

/-- Witness for C6 (amended) at the spec's own example text `A-->B`. -/
theorem normalize_mermaid_amended_witness :
    pyStrip ("A-->B".toList) ≠ [] ∧
    (∃ s1, normalize_mermaid ("mindmap".toList) ("A-->B".toList) = some s1 ∧
      s1.diagram_type = "mindmap".toList ∧
      startsWithL (pyLower s1.mermaid) ("mindmap".toList) = true) :=
  ⟨by decide, ((normalize_mermaid_amended ("A-->B".toList)).2 (by decide)).1⟩

/-!
## Claim C7 — unrecognized diagram types and field defaults

Nothing in the pipeline validates `diagram_type` against the recognized
set: `(parsed.get("diagram_type") or "none").lower()` only turns missing
or falsy values into `"none"`. An unrecognized non-empty string flows
straight into `normalize_mermaid`, which builds a `DiagramSpec` for it, so
the slide *does* carry a diagram. The missing-field defaults, by contrast,
hold as claimed.
-/

/-- Counterexample to C7 as stated: a successful extraction with
`diagram_type: "banana"` (outside the recognized set) and non-empty
diagram text yields a slide that **does** carry a diagram, typed
`"banana"` — it is not coerced to `none`. -/
theorem buildSlideFields_banana_counterexample :
    buildSlideFields (Json.obj [("diagram_type", Json.str ("banana")), ("mermaid", Json.str ("x"))])
        0 ("v") none
      = some ⟨Json.str (""), Json.arr [], Json.str (""), some ⟨"banana".toList, "x".toList⟩,
          0, "v", none⟩ ∧
    (some (⟨"banana".toList, "x".toList⟩ : DiagramSpec)) ≠ none :=
  ⟨rfl, Option.some_ne_none _⟩

theorem pyOrStrDefault_str_empty_default (m : String) :
    pyOrStrDefault (some (Json.str m)) "" = some m := by
  by_cases hm : m = ""
  · simp [pyOrStrDefault, jsonFalsy, hm]
  · simp [pyOrStrDefault, jsonFalsy, hm]

/-- C7 (amended): on a successful extraction, a missing `title` or `notes`
defaults to empty text and missing `bullets` to the empty sequence; but an
unrecognized non-empty `diagram_type` is **not** coerced to `none` — when
the diagram text is non-empty after trimming, the slide carries exactly
the `DiagramSpec` the normalizer builds for that raw (lowered) type. -/
theorem buildSlideFields_amended (fields : List (String × Json)) (st : ℚ)
    (vid : String) (shot : Option (List Char)) (s m : String)
    (hdt : dictGet fields ("diagram_type") = some (Json.str s)) (hs : s ≠ "")
    (hm : dictGet fields ("mermaid") = some (Json.str m))
    (htitle : dictGet fields ("title") = none)
    (hbul : dictGet fields ("bullets") = none)
    (hnotes : dictGet fields ("notes") = none)
    (hnn : pyLowerStr s ≠ "none")
    (hmm : pyStrip m.toList ≠ []) :
    ∃ slide : SlideRec,
      buildSlideFields (Json.obj fields) st vid shot = some slide ∧
      slide.title = Json.str ("") ∧
      slide.bullets = Json.arr [] ∧
      slide.notes = Json.str ("") ∧
      slide.diagram = normalize_mermaid (pyLowerStr s).toList m.toList ∧
      slide.diagram ≠ none := by
  have hdtv : pyOrStrDefault (some (Json.str s)) "none" = some s := by
    simp [pyOrStrDefault, jsonFalsy, hs]
  have hmv : pyOrStrDefault (some (Json.str m)) "" = some m :=
    pyOrStrDefault_str_empty_default m
  refine ⟨⟨Json.str (""), Json.arr [], Json.str (""),
      normalize_mermaid (pyLowerStr s).toList m.toList, st, vid, shot⟩, ?_, rfl, rfl, rfl, rfl, ?_⟩
  · simp only [buildSlideFields]
    rw [hdt, hm, hdtv, hmv, htitle, hbul, hnotes]
    simp only [Option.getD_none, if_pos hnn]
  · rw [normalize_mermaid, if_neg hmm]
    simp

/-- Witness for C7 (amended) at the `banana` extraction. -/
theorem buildSlideFields_amended_witness :
    ∃ slide : SlideRec,
      buildSlideFields
          (Json.obj [("diagram_type", Json.str ("banana")), ("mermaid", Json.str ("x"))])
          0 ("v") none = some slide ∧
      slide.title = Json.str ("") ∧
      slide.bullets = Json.arr [] ∧
      slide.notes = Json.str ("") ∧
      slide.diagram = normalize_mermaid (pyLowerStr ("banana")).toList ("x" : String).toList ∧
      slide.diagram ≠ none :=
  buildSlideFields_amended
    [("diagram_type", Json.str ("banana")), ("mermaid", Json.str ("x"))] 0 ("v") none
    ("banana") "x" rfl (by decide) rfl rfl rfl rfl (by decide) (by decide)

/-!
## Claim C8 — the assembler skips failed chunks

When every model fails for a chunk, `process_video_file` executes
`continue` — no slide dict is appended for that chunk. The deck therefore
has one record per **successful** chunk (in chunk order), not one per
chunk: a permanently failed chunk leaves no empty/default record behind.
-/

/-- Counterexample to C8 as stated: two chunks, the first failing on every
model and the second succeeding, produce a deck with a single record — not
one record per chunk. -/
theorem processChunks_skips_failed_chunk :
    processChunks
        (fun i => if i = 0 then [(none, none)] else [(some ("\x7b\"title\": \"T\"\x7d"), none)])
        [] [] "v" 0 ["c1".toList, "c2".toList]
      = some [⟨Json.str ("T"), Json.arr [], Json.str (""), none, 0, "v", none⟩] ∧
    ([(⟨Json.str ("T"), Json.arr [], Json.str (""), none, 0, "v", none⟩ : SlideRec)]).length
      ≠ (["c1".toList, "c2".toList]).length :=
  ⟨rfl, by decide⟩

theorem filter_range_succ_length_neg (p : Nat → Bool) (n : Nat)
    (h0 : p 0 = false) :
    ((List.range (n + 1)).filter p).length
      = ((List.range n).filter (fun k => p (k + 1))).length := by
  rw [List.range_succ_eq_map, List.filter_cons_of_neg (by simpa using h0),
    List.filter_map, List.length_map]
  congr 1

theorem filter_range_succ_length_pos (p : Nat → Bool) (n : Nat)
    (h0 : p 0 = true) :
    ((List.range (n + 1)).filter p).length
      = ((List.range n).filter (fun k => p (k + 1))).length + 1 := by
  rw [List.range_succ_eq_map, List.filter_cons_of_pos (by simpa using h0),
    List.length_cons, List.filter_map, List.length_map]
  congr 2

/-- C8 (amended): the assembler walks the chunks in order and, for each
chunk whose generation-client loop succeeded, appends exactly the record
built from that chunk, in chunk order; chunks whose generation permanently
fails are skipped. The deck is therefore exactly the in-order
per-successful-chunk slide list over the index-enumerated chunks, its
length is the number of successful chunk indices, and it can be smaller
than the number of chunks. -/
theorem processChunks_one_record_per_successful_chunk
    (chunks : List (List Char))
    (outcomes : Nat → List (Option String × Option String))
    (segments : List CaptionSeg) (frames : List FrameSample) (vid : String) :
    ∀ (idx : Nat) (deck : List SlideRec),
      processChunks outcomes segments frames vid idx chunks = some deck →
      deck = (List.enumFrom idx chunks).filterMap
          (fun p => mkChunkSlide outcomes segments frames vid p.1 p.2) ∧
      deck.length
        = ((List.range chunks.length).filter
            (fun k => chunkSucceeds outcomes (idx + k))).length ∧
      deck.length ≤ chunks.length := by
  induction chunks with
  | nil =>
    intro idx deck h
    simp only [processChunks, Option.some.injEq] at h
    subst h
    simp
  | cons c rest ih =>
    intro idx deck h
    simp only [processChunks] at h
    have hshift : (fun k => chunkSucceeds outcomes (idx + (k + 1)))
        = (fun k => chunkSucceeds outcomes ((idx + 1) + k)) := by
      funext k
      congr 1
      omega
    have hef : List.enumFrom idx (c :: rest) = (idx, c) :: List.enumFrom (idx + 1) rest := rfl
    rcases htm : (tryModels (outcomes idx)).1 with _ | llm
    · rw [htm] at h
      dsimp only at h
      have hidx : chunkSucceeds outcomes (idx + 0) = false := by
        simp [chunkSucceeds, htm]
      have hmk : mkChunkSlide outcomes segments frames vid idx c = none := by
        simp [mkChunkSlide, htm]
      rcases ih (idx + 1) deck h with ⟨h0, h1, h2⟩
      refine ⟨?_, ?_, le_trans h2 (Nat.le_succ _)⟩
      · rw [hef, List.filterMap_cons_none (by simpa using hmk)]
        exact h0
      · have hlen : (c :: rest).length = rest.length + 1 := rfl
        rw [hlen, filter_range_succ_length_neg _ _ (by simpa using hidx)]
        rw [hshift]
        exact h1
    · rw [htm] at h
      dsimp only at h
      rcases hp : safe_parse_json_str llm with _ | parsed <;> rw [hp] at h
      · simp at h
      · dsimp only at h
        rcases hb : buildSlideFields parsed
            (find_start_time_for_chunk c segments)
            vid (find_closest_frame (find_start_time_for_chunk c segments) frames)
          with _ | slide <;> rw [hb] at h
        · simp at h
        · dsimp only at h
          rcases hrest : processChunks outcomes segments frames vid (idx + 1) rest
            with _ | deckTail <;> rw [hrest] at h
          · simp at h
          · simp only [Option.map_some', Option.some.injEq] at h
            subst h
            have hidx : chunkSucceeds outcomes (idx + 0) = true := by
              simp [chunkSucceeds, htm]
            have hmk : mkChunkSlide outcomes segments frames vid idx c = some slide := by
              simp [mkChunkSlide, htm, hp, hb]
            rcases ih (idx + 1) deckTail hrest with ⟨h0, h1, h2⟩
            refine ⟨?_, ?_, by simpa using Nat.succ_le_succ h2⟩
            · rw [hef, List.filterMap_cons_some (by simpa using hmk)]
              rw [h0]
            · have hlen : (c :: rest).length = rest.length + 1 := rfl
              rw [List.length_cons, hlen,
                filter_range_succ_length_pos _ _ (by simpa using hidx)]
              rw [hshift]
              omega

/-- Witness for C8 (amended) at the two-chunk scenario: the deck is
exactly the slide of the single successful chunk, and its length matches
the success count. -/
theorem processChunks_one_record_witness :
    ([(⟨Json.str ("T"), Json.arr [], Json.str (""), none, 0, "v", none⟩ : SlideRec)])
      = (List.enumFrom 0 ["c1".toList, "c2".toList]).filterMap
          (fun p => mkChunkSlide
            (fun i => if i = 0 then [(none, none)] else [(some ("\x7b\"title\": \"T\"\x7d"), none)])
            [] [] "v" p.1 p.2) ∧
    ([(⟨Json.str ("T"), Json.arr [], Json.str (""), none, 0, "v", none⟩ : SlideRec)]).length
      = ((List.range (["c1".toList, "c2".toList]).length).filter
          (fun k => chunkSucceeds
            (fun i => if i = 0 then [(none, none)] else [(some ("\x7b\"title\": \"T\"\x7d"), none)])
            (0 + k))).length ∧
    ([(⟨Json.str ("T"), Json.arr [], Json.str (""), none, 0, "v", none⟩ : SlideRec)]).length
      ≤ (["c1".toList, "c2".toList]).length :=
  processChunks_one_record_per_successful_chunk
    ["c1".toList, "c2".toList]
    (fun i => if i = 0 then [(none, none)] else [(some ("\x7b\"title\": \"T\"\x7d"), none)])
    [] [] "v" 0
    [⟨Json.str ("T"), Json.arr [], Json.str (""), none, 0, "v", none⟩] rfl

/-!
## Claims C5 and C10 — the chunker and its termination
-/

theorem sliceIdx_coe (len m : Nat) (hm : m ≤ len) : sliceIdx len (m : Int) = m := by
  unfold sliceIdx
  rw [if_neg (by simp)]
  rw [min_eq_right (by exact_mod_cast hm)]
  rw [max_eq_right (by positivity)]
  simp

theorem pySlice_nat (xs : List α) (i t : Nat) (hi : i ≤ xs.length) :
    pySlice xs (i : Int) ((min xs.length (i + t) : Nat) : Int)
      = (xs.drop i).take t := by
  unfold pySlice
  rw [sliceIdx_coe _ _ (min_le_left _ _), sliceIdx_coe _ _ hi]
  rw [List.drop_take]
  have h1 : min xs.length (i + t) - i = min (xs.length - i) t := by omega
  rw [h1]
  rcases le_or_lt t (xs.length - i) with hle | hlt
  · rw [min_eq_right hle]
  · rw [min_eq_left (le_of_lt hlt)]
    have hdl : (xs.drop i).length = xs.length - i := List.length_drop i xs
    rw [List.take_of_length_le (by omega), List.take_of_length_le (by rw [hdl]; omega)]

theorem chunkGroups_nil (t : Nat) : chunkGroups t [] = [] := by
  rw [chunkGroups]
  split <;> rfl

theorem chunkGroups_cons (t : Nat) (ht : t ≠ 0) (w : List Char) (rest : List (List Char)) :
    chunkGroups t (w :: rest)
      = ((w :: rest).take t) :: chunkGroups t ((w :: rest).drop t) := by
  rw [chunkGroups, dif_neg ht]

theorem chunkGroups_ne_nil (t : Nat) (ht : t ≠ 0) (w : List Char)
    (rest : List (List Char)) : chunkGroups t (w :: rest) ≠ [] := by
  rw [chunkGroups_cons t ht]
  simp

/-- Structural facts about the word groups, by strong induction on the
word count: concatenation restores the words, no group is empty or larger
than the target, and every group but the last has exactly target words. -/
theorem chunkGroups_master (t : Nat) (ht : 1 ≤ t) :
    ∀ (n : Nat) (ws : List (List Char)), ws.length ≤ n →
      (chunkGroups t ws).flatten = ws ∧
      (∀ g ∈ chunkGroups t ws, g ≠ [] ∧ g.length ≤ t) ∧
      (∀ g ∈ (chunkGroups t ws).dropLast, g.length = t) := by
  intro n
  induction n with
  | zero =>
    intro ws hw
    have : ws = [] := List.length_eq_zero.mp (Nat.le_zero.mp hw)
    subst this
    simp [chunkGroups_nil]
  | succ n ih =>
    intro ws hw
    rcases ws with _ | ⟨w, rest⟩
    · simp [chunkGroups_nil]
    · have ht0 : t ≠ 0 := by omega
      rw [chunkGroups_cons t ht0]
      have hlen : ((w :: rest).drop t).length ≤ n := by
        rw [List.length_drop]
        simp only [List.length_cons] at hw ⊢
        omega
      rcases ih _ hlen with ⟨hj, hg, hd⟩
      refine ⟨?_, ?_, ?_⟩
      · rw [List.flatten_cons, hj, List.take_append_drop]
      · intro g hgmem
        rcases List.mem_cons.mp hgmem with rfl | hgmem
        · constructor
          · have : (w :: rest).take t ≠ [] := by
              rcases t with _ | t'
              · omega
              · simp [List.take_cons]
            exact this
          · exact le_trans (List.length_take_le t _) (le_refl t)
        · exact hg g hgmem
      · rcases hrest : chunkGroups t ((w :: rest).drop t) with _ | ⟨g1, gs⟩
        · intro g hgmem
          simp [List.dropLast_single] at hgmem
        · intro g hgmem
          rw [show (List.take t (w :: rest) :: g1 :: gs).dropLast = List.take t (w :: rest) :: (g1 :: gs).dropLast from rfl] at hgmem
          rcases List.mem_cons.mp hgmem with rfl | hgmem
          · have hdrop_ne : (w :: rest).drop t ≠ [] := by
              intro hnil
              rw [hnil, chunkGroups_nil] at hrest
              exact List.noConfusion hrest
            have htlen : t < (w :: rest).length := by
              by_contra hcon
              exact hdrop_ne (List.drop_eq_nil_of_le (by omega))
            rw [List.length_take]
            omega
          · rw [← hrest] at hgmem
            exact hd g hgmem

/-- The loop of `chunk_text_by_words`, for a positive target and enough
fuel, computes exactly the joined word groups of the remaining words. -/
theorem chunkLoop_eq_chunkGroups (words : List (List Char)) (target : Int)
    (ht : 1 ≤ target) :
    ∀ (fuel i : Nat) (acc : List (List Char)), i ≤ words.length →
      words.length < i + fuel →
      chunkLoop words target fuel (i : Int) acc
        = some (acc ++ (chunkGroups target.toNat (words.drop i)).map joinWords) := by
  intro fuel
  induction fuel with
  | zero =>
    intro i acc hi hfuel
    omega
  | succ fuel ih =>
    intro i acc hi hfuel
    by_cases hlt : i < words.length
    · rw [chunkLoop, if_pos (by exact_mod_cast hlt)]
      have ht0 : target.toNat ≠ 0 := by omega
      have hj : min (words.length : Int) ((i : Int) + target)
          = ((min words.length (i + target.toNat) : Nat) : Int) := by
        omega
      rw [hj, pySlice_nat words i target.toNat hi]
      rw [ih (min words.length (i + target.toNat))
        (acc ++ [joinWords ((words.drop i).take target.toNat)])
        (min_le_left _ _) (by omega)]
      have hressplit : ∃ w ws', words.drop i = w :: ws' := by
        rcases hd : words.drop i with _ | ⟨w, ws'⟩
        · exfalso
          have := List.drop_eq_nil_iff.mp hd
          omega
        · exact ⟨_, _, rfl⟩
      rcases hressplit with ⟨w, ws', hw⟩
      have hgr : chunkGroups target.toNat (words.drop i)
          = (words.drop i).take target.toNat
            :: chunkGroups target.toNat ((words.drop i).drop target.toNat) := by
        rw [hw]
        exact chunkGroups_cons _ ht0 w ws'
      have hdd : (words.drop i).drop target.toNat
          = words.drop (min words.length (i + target.toNat)) := by
        rw [List.drop_drop]
        rcases le_or_lt (i + target.toNat) words.length with hle | hlt2
        · rw [min_eq_right hle, Nat.add_comm]
        · rw [min_eq_left (le_of_lt hlt2), List.drop_length,
            List.drop_eq_nil_of_le (by omega)]
      rw [hgr, hdd]
      simp
    · have hieq : i = words.length := by omega
      rw [chunkLoop, if_neg (by exact_mod_cast hlt)]
      rw [hieq, List.drop_length, chunkGroups_nil]
      simp

/-- Every word produced by `split()` is non-empty and whitespace-free. -/
theorem pyWordsAux_good : ∀ (cs cur : List Char),
    (cur ≠ [] → ∀ c ∈ cur, isPyWs c = false) →
    ∀ w ∈ pyWordsAux cur cs, w ≠ [] ∧ ∀ c ∈ w, isPyWs c = false := by
  intro cs
  induction cs with
  | nil =>
    intro cur hcur w hw
    by_cases hc : cur = []
    · subst hc
      simp [pyWordsAux] at hw
    · rw [pyWordsAux, if_neg hc] at hw
      simp only [List.mem_singleton] at hw
      subst hw
      refine ⟨by simpa using hc, ?_⟩
      intro c hcmem
      exact hcur hc c (List.mem_reverse.mp hcmem)
  | cons a cs ih =>
    intro cur hcur w hw
    rw [pyWordsAux] at hw
    by_cases ha : isPyWs a = true
    · rw [if_pos ha] at hw
      by_cases hc : cur = []
      · rw [if_pos hc] at hw
        exact ih [] (by intro h; simp at h) w hw
      · rw [if_neg hc] at hw
        rcases List.mem_cons.mp hw with rfl | hw
        · refine ⟨by simpa using hc, ?_⟩
          intro c hcmem
          exact hcur hc c (List.mem_reverse.mp hcmem)
        · exact ih [] (by intro h; simp at h) w hw
    · rw [if_neg ha] at hw
      refine ih (a :: cur) ?_ w hw
      intro _ c hcmem
      rcases List.mem_cons.mp hcmem with rfl | hcmem
      · simpa using ha
      · by_cases hc : cur = []
        · subst hc
          simp at hcmem
        · exact hcur hc c hcmem

/-- Scanning a whitespace-free word accumulates it verbatim. -/
theorem pyWordsAux_word (w : List Char) (hgood : ∀ c ∈ w, isPyWs c = false) :
    ∀ (cur rest : List Char),
      pyWordsAux cur (w ++ rest) = pyWordsAux (w.reverse ++ cur) rest := by
  induction w with
  | nil =>
    intro cur rest
    simp
  | cons c w' ih =>
    intro cur rest
    have hc : isPyWs c = false := hgood c (List.mem_cons_self c w')
    rw [List.cons_append, pyWordsAux, if_neg (by simp [hc])]
    rw [ih (fun d hd => hgood d (List.mem_cons_of_mem c hd)) (c :: cur) rest]
    congr 1
    simp

/-- Split after join: `split()` of a space-joined list of non-empty,
whitespace-free words gives the words back. -/
theorem pyWords_joinWords (ws : List (List Char))
    (hgood : ∀ w ∈ ws, w ≠ [] ∧ ∀ c ∈ w, isPyWs c = false) :
    pyWords (joinWords ws) = ws := by
  induction ws with
  | nil => rfl
  | cons w ws' ih =>
    rcases hgood w (List.mem_cons_self w ws') with ⟨hne, hwf⟩
    rcases ws' with _ | ⟨w2, ws''⟩
    · have hjw : joinWords [w] = w := by
        simp [joinWords, List.intercalate]
      rw [hjw]
      unfold pyWords
      rw [show w = w ++ [] from (List.append_nil w).symm, pyWordsAux_word w hwf [] []]
      rw [List.append_nil, List.append_nil, pyWordsAux, if_neg (by simpa using hne)]
      simp
    · have hjw : joinWords (w :: w2 :: ws'') = w ++ ' ' :: joinWords (w2 :: ws'') := rfl
      rw [hjw]
      unfold pyWords
      rw [pyWordsAux_word w hwf [] (' ' :: joinWords (w2 :: ws''))]
      rw [List.append_nil, pyWordsAux, if_pos (by decide), if_neg (by simpa using hne)]
      rw [List.reverse_reverse]
      have := ih (fun g hg => hgood g (List.mem_cons_of_mem w hg))
      unfold pyWords at this
      rw [this]

/-- C5: for every input text and positive target, the chunker (with any
sufficient fuel — see C10 for termination itself) produces chunks of which
all but possibly the last hold exactly `target` words, whose word
sequences concatenate back to the input's word sequence, none of which is
empty; and a wordless input gives no chunks. -/
theorem chunk_text_by_words_spec (text : List Char) (target : Int)
    (ht : 1 ≤ target) :
    ∃ cs : List (List Char),
      (∀ fuel, (pyWords text).length < fuel →
        chunk_text_by_words text target fuel = some cs) ∧
      (∀ chunk ∈ cs.dropLast, (pyWords chunk).length = target.toNat) ∧
      ((cs.map pyWords).flatten = pyWords text) ∧
      (∀ chunk ∈ cs, chunk ≠ []) ∧
      (pyWords text = [] → cs = []) := by
  have hgood : ∀ w ∈ pyWords text, w ≠ [] ∧ ∀ c ∈ w, isPyWs c = false := by
    intro w hw
    exact pyWordsAux_good text [] (fun hc => absurd rfl hc) w hw
  rcases chunkGroups_master target.toNat (by omega) (pyWords text).length
      (pyWords text) le_rfl with ⟨hjoin, hgroups, hdrop⟩
  have hGgood : ∀ g ∈ chunkGroups target.toNat (pyWords text),
      ∀ w ∈ g, w ≠ [] ∧ ∀ c ∈ w, isPyWs c = false := by
    intro g hg w hw
    refine hgood w ?_
    rw [← hjoin]
    exact List.mem_flatten.mpr ⟨g, hg, hw⟩
  refine ⟨(chunkGroups target.toNat (pyWords text)).map joinWords, ?_, ?_, ?_, ?_, ?_⟩
  · intro fuel hfuel
    unfold chunk_text_by_words
    have := chunkLoop_eq_chunkGroups (pyWords text) target ht fuel 0 []
      (by omega) (by omega)
    simpa using this
  · intro chunk hchunk
    rw [← List.map_dropLast] at hchunk
    rcases List.mem_map.mp hchunk with ⟨g, hgmem, rfl⟩
    have hgin : g ∈ chunkGroups target.toNat (pyWords text) :=
      (List.dropLast_sublist _).subset hgmem
    rw [pyWords_joinWords g (hGgood g hgin)]
    exact hdrop g hgmem
  · rw [List.map_map]
    have hcongr : (chunkGroups target.toNat (pyWords text)).map (pyWords ∘ joinWords)
        = (chunkGroups target.toNat (pyWords text)).map id := by
      apply List.map_congr_left
      intro g hg
      exact pyWords_joinWords g (hGgood g hg)
    rw [hcongr, List.map_id]
    exact hjoin
  · intro chunk hchunk
    rcases List.mem_map.mp hchunk with ⟨g, hgmem, rfl⟩
    rcases hgroups g hgmem with ⟨hgne, _⟩
    have hwne : ∀ w ∈ g, w ≠ [] := fun w hw => (hGgood g hgmem w hw).1
    rcases g with _ | ⟨w, g'⟩
    · exact absurd rfl hgne
    · rcases g' with _ | ⟨w2, g''⟩
      · have hjw : joinWords [w] = w := by simp [joinWords, List.intercalate]
        rw [hjw]
        exact hwne w (List.mem_cons_self w [])
      · have hjw : joinWords (w :: w2 :: g'') = w ++ ' ' :: joinWords (w2 :: g'') := rfl
        rw [hjw]
        simp
  · intro hnil
    rw [hnil, chunkGroups_nil]
    rfl

/-- Witness for C5 at the repository's own test vector: splitting
"one two three four five" with target 2. -/
theorem chunk_text_by_words_spec_witness :
    (1 : Int) ≤ 2 ∧
    (∃ cs : List (List Char),
      (∀ fuel, (pyWords ("one two three four five".toList)).length < fuel →
        chunk_text_by_words ("one two three four five".toList) 2 fuel = some cs) ∧
      (∀ chunk ∈ cs.dropLast, (pyWords chunk).length = (2 : Int).toNat) ∧
      ((cs.map pyWords).flatten = pyWords ("one two three four five".toList)) ∧
      (∀ chunk ∈ cs, chunk ≠ []) ∧
      (pyWords ("one two three four five".toList) = [] → cs = [])) ∧
    chunk_text_by_words ("one two three four five".toList) 2 6
      = some ["one two".toList, "three four".toList, "five".toList] :=
  ⟨by norm_num, chunk_text_by_words_spec ("one two three four five".toList) 2 (by norm_num),
    rfl⟩

/-- For a non-positive target, the loop index can never move right, so no
amount of fuel completes the loop on a non-empty word list. -/
theorem chunkLoop_none_of_nonpos (words : List (List Char)) (target : Int)
    (htn : target ≤ 0) (hne : words ≠ []) :
    ∀ (fuel : Nat) (i : Int), i ≤ 0 → ∀ acc, chunkLoop words target fuel i acc = none := by
  intro fuel
  induction fuel with
  | zero => intro i hi acc; rfl
  | succ fuel ih =>
    intro i hi acc
    have hlen : 0 < words.length := List.length_pos.mpr hne
    have hcast : (0 : Int) < (words.length : Int) := by exact_mod_cast hlen
    rw [chunkLoop, if_pos (by omega)]
    exact ih _ (by omega) _

/-- C10: the chunker's loop terminates for a positive target (the index
strictly increases until it passes the word count), and for a non-positive
target on any input with at least one word it never terminates — the
positivity precondition of the spec is exactly what totality needs. -/
theorem chunk_text_by_words_termination (text : List Char) (target : Int) :
    (1 ≤ target →
      ∃ fuel cs, chunk_text_by_words text target fuel = some cs) ∧
    (target ≤ 0 → pyWords text ≠ [] →
      ∀ fuel, chunk_text_by_words text target fuel = none) := by
  constructor
  · intro ht
    refine ⟨(pyWords text).length + 1,
      (chunkGroups target.toNat (pyWords text)).map joinWords, ?_⟩
    unfold chunk_text_by_words
    have := chunkLoop_eq_chunkGroups (pyWords text) target ht
      ((pyWords text).length + 1) 0 [] (by omega) (by omega)
    simpa using this
  · intro htn hne fuel
    unfold chunk_text_by_words
    exact chunkLoop_none_of_nonpos (pyWords text) target htn hne fuel 0 le_rfl []

/-- Witness for C10: target 2 terminates on "a b c"; target 0 never
terminates on "a b". -/
theorem chunk_text_by_words_termination_witness :
    (∃ fuel cs, chunk_text_by_words ("a b c".toList) 2 fuel = some cs) ∧
    (∀ fuel, chunk_text_by_words ("a b".toList) 0 fuel = none) :=
  ⟨(chunk_text_by_words_termination ("a b c".toList) 2).1 (by norm_num),
    (chunk_text_by_words_termination ("a b".toList) 0).2 (by norm_num) (by decide)⟩
